import Mathlib

/-!
Verification of the SDCIT permutation-based conditional-independence test core
(`kcipt/cython_impl/SDCIT.h`).  The repository exposes only the declaration
surface (the header); every function body is modelled from the specification:
matrices are flat row-major lists of rationals, the `std::mt19937` generator is
an explicit deterministic seeded stream, and the caller's buffers are fields of
an explicit state record so that writes and frame conditions are visible.
-/

namespace SDCIT

/-- Modelled from the spec: the `std::mt19937` random generator, whose exact
stream is not part of the design, is replaced by an explicit deterministic
seeded stream ("explicit seeded streams ... derived from (seed, round-index)").
Only determinism for a fixed seed matters to the claims. -/
structure Gen where
  state : Nat
deriving DecidableEq

/-- Modelled from the spec: one draw from the deterministic stream, returning a
pseudo-random natural number and the advanced generator state. -/
def genNext (g : Gen) : Nat × Gen :=
  let s := (g.state * 1103515245 + 12345) % 4294967296
  (s, ⟨s⟩)

/-- Modelled from the spec: seeding the generator from an integer seed. -/
def mkGen (seed : Nat) : Gen := ⟨seed % 4294967296⟩

/-- Entry `(i, j)` of a flat row-major `n × n` matrix (out-of-range reads 0). -/
def entry (M : List ℚ) (n i j : Nat) : ℚ := M.getD (i * n + j) 0

/-- Largest entry of a matrix, at least 0 (distance matrices are non-negative). -/
def maxEntry (D : List ℚ) : ℚ := D.foldl max 0

/-- Modelled from the spec: choose, among the not-yet-matched candidates `cs`,
one with minimal `D_Z`-distance to the source index `s`, breaking ties via the
random stream; with no candidate left, fall back to the source itself
(self-match).  The body of `perm_and_mask` is absent from the repository. -/
def pickNearest (D : List ℚ) (n s : Nat) (cs : List Nat) (g : Gen) : Nat × Gen :=
  match cs.argmin (fun c => entry D n s c) with
  | none => (s, g)
  | some m =>
      ((cs.filter (fun c => decide (entry D n s c = entry D n s m))).getD
          ((genNext g).1 % (cs.filter (fun c => decide (entry D n s c = entry D n s m))).length)
          m,
        (genNext g).2)

/-- Modelled from the spec: without-replacement nearest-neighbor matching over
the list of still-unmatched sample indices, fuel-indexed for structural
recursion (fuel is always instantiated with the list length).  Each step pairs
the first unmatched source with its nearest remaining candidate and removes
both; an exhausted candidate pool yields the documented self-match fallback. -/
def nnMatchF (D : List ℚ) (n : Nat) : Nat → List Nat → Gen → List (Nat × Nat) × Gen
  | _, [], g => ([], g)
  | 0, _ :: _, g => ([], g)
  | fuel + 1, s :: rest, g =>
      let cg := pickNearest D n s rest g
      let pg := nnMatchF D n fuel (rest.erase cg.1) cg.2
      ((s, cg.1) :: pg.1, pg.2)

/-- Matching pass over a whole sample (fuel instantiated with its length). -/
def nnMatch (D : List ℚ) (n : Nat) (l : List Nat) (g : Gen) : List (Nat × Nat) × Gen :=
  nnMatchF D n l.length l g

/-- Partner of `x` under a list of matched pairs: `(a, b)` sends `a` to `b`
and `b` to `a`; indices touched by no pair stay fixed. -/
def matchOf (ps : List (Nat × Nat)) (x : Nat) : Nat :=
  match ps with
  | [] => x
  | (a, b) :: rest => if x = a then b else if x = b then a else matchOf rest x

/-- Modelled from the spec: `perm_and_mask` (body absent from the repository)
returns the Permutation — each sample position mapped to its matched partner —
together with the Mask of consumed `(source, matched)` pairs and the advanced
generator, as in the header signature
`pair<vector<int>, vector<pair<int,int>>> perm_and_mask(D_Z, n, sample, generator)`. -/
def perm_and_mask (D_Z : List ℚ) (n : Nat) (sample : List Nat) (g : Gen) :
    (List Nat × List (Nat × Nat)) × Gen :=
  let r := nnMatch D_Z n sample g
  ((sample.map (matchOf r.1), r.1), r.2)

/-- Modelled from the spec: `shuffle_matrix(mat, n, perm)` (body absent from
the repository) returns the `len(perm) × len(perm)` matrix whose entry at
`(i, j)` is `mat[perm[i]][perm[j]]`. -/
def shuffle_matrix (mat : List ℚ) (n : Nat) (perm : List Nat) : List ℚ :=
  (List.range (perm.length * perm.length)).map
    (fun k => entry mat n (perm.getD (k / perm.length) 0) (perm.getD (k % perm.length) 0))

/-- Modelled from the spec: `penalized_distance(D_Z, n, mask)` (body absent
from the repository) returns a new matrix in which every masked (unordered)
pair is driven to a sentinel strictly above every original entry, while
unmasked entries are unchanged; the input matrix is not mutated. -/
def penalized_distance (D_Z : List ℚ) (n : Nat) (mask : List (Nat × Nat)) : List ℚ :=
  (List.range (n * n)).map (fun k =>
    if (k / n, k % n) ∈ mask ∨ (k % n, k / n) ∈ mask then maxEntry D_Z + 1
    else D_Z.getD k 0)

/-- Modelled from the spec: the test statistic's exact formula is not exposed
by the interface (design notes, open question); any deterministic kernel
discrepancy on `(K_XZ, K_Y)` is admissible, so a normalized sum of entrywise
kernel products stands in for it. -/
def statistic (K_XZ K_Y : List ℚ) (n : Nat) : ℚ :=
  (((List.range (n * n)).map (fun k => K_XZ.getD k 0 * K_Y.getD k 0)).foldl (· + ·) 0)
    / (n * n : ℚ)

/-- Modelled from the spec: the per-round random stream is derived from the
global seed and the round index, never from a process-wide generator. -/
def roundGen (seed : Int) (i : Nat) : Gen := mkGen (seed.natAbs * 1000003 + i)

/-- Modelled from the spec: the working distance matrix seen by round `i` —
the original `D_Z` penalized by the masks of all earlier rounds, a pure
state thread-through so that round results depend only on the round index. -/
def roundD (D_Z : List ℚ) (n : Nat) (seed : Int) : Nat → List ℚ
  | 0 => D_Z
  | i + 1 =>
      let D := roundD D_Z n seed i
      penalized_distance D n ((perm_and_mask D n (List.range n) (roundGen seed i)).1).2

/-- Modelled from the spec: the bootstrap statistic of round `i` — match
against the working distance matrix, permute `K_Y` by the resulting
Permutation, and evaluate the statistic on the surrogate pair.  A pure
function of the inputs, the seed and the round index. -/
def roundValue (K_XZ K_Y D_Z : List ℚ) (n : Nat) (seed : Int) (i : Nat) : ℚ :=
  let D := roundD D_Z n seed i
  let pm := perm_and_mask D n (List.range n) (roundGen seed i)
  statistic K_XZ (shuffle_matrix K_Y n pm.1.1) n

/-- Modelled from the spec: static contiguous partition of the `b` rounds
across `T` worker threads; thread `t` owns the rounds whose block index
`i * T / b` equals `t`. -/
def threadRounds (b T t : Nat) : List Nat :=
  (List.range b).filter (fun i => decide (i * T / b = t))

/-- Sequential application of slot writes `(index, value)` to a buffer; each
worker writes only its own slots, so the order of application is irrelevant. -/
def writeSlots (buf : List ℚ) : List (Nat × ℚ) → List ℚ
  | [] => buf
  | w :: ws => writeSlots (buf.set w.1 w.2) ws

/-- Slot writes produced by all worker threads: thread `t` writes, for each
round `i` it owns, the value `f i` into slot `i` of the null buffer. -/
def roundWrites (f : Nat → ℚ) (b T : Nat) : List (Nat × ℚ) :=
  (List.range T).flatMap (fun t => (threadRounds b T t).map (fun i => (i, f i)))

/-- Caller-owned buffers visible to `c_sdcit`: the three input matrices and
the two output regions, each possibly absent (a null pointer). -/
structure SdcitState where
  kxz : Option (List ℚ)
  ky : Option (List ℚ)
  dz : Option (List ℚ)
  mmsd : Option ℚ
  null : Option (List ℚ)
deriving DecidableEq

/-- Configuration validity: positive `n`, non-negative `b`, positive thread
count, and all five buffer pointers present. -/
def validConfig (st : SdcitState) (n b n_threads : Int) : Bool :=
  decide (0 < n) && decide (0 ≤ b) && decide (0 < n_threads) &&
    st.kxz.isSome && st.ky.isSome && st.dz.isSome && st.mmsd.isSome && st.null.isSome

/-- Modelled from the spec: the driver `c_sdcit` (body absent from the
repository).  Invalid configurations are rejected before any computation and
leave the caller's state untouched; otherwise `mmsd` receives the statistic of
the unpermuted pair and each worker thread writes the round values of its
block into its own slots of `null`. -/
def c_sdcit (st : SdcitState) (n b seed n_threads : Int) : Option String × SdcitState :=
  if validConfig st n b n_threads then
    let nn := n.toNat
    let bb := b.toNat
    let T := n_threads.toNat
    let K_XZ := st.kxz.getD []
    let K_Y := st.ky.getD []
    let D_Z := st.dz.getD []
    let writes := roundWrites (roundValue K_XZ K_Y D_Z nn seed) bb T
    (none, { st with
               mmsd := some (statistic K_XZ K_Y nn),
               null := some (writeSlots (st.null.getD []) writes) })
  else (some "invalid configuration", st)

/-! Helper lemmas about the matching generator. -/

theorem getD_mem_of_lt {α : Type} {l : List α} {i : Nat} (d : α) (h : i < l.length) :
    l.getD i d ∈ l := by
  rw [List.getD_eq_getElem?_getD, List.getElem?_eq_getElem h]
  exact List.getElem_mem h

theorem pickNearest_nil (D : List ℚ) (n s : Nat) (g : Gen) :
    pickNearest D n s [] g = (s, g) := rfl

theorem pickNearest_mem (D : List ℚ) (n s : Nat) {cs : List Nat} (g : Gen)
    (h : cs ≠ []) : (pickNearest D n s cs g).1 ∈ cs := by
  unfold pickNearest
  split
  · next heq => exact absurd (List.argmin_eq_none.1 heq) h
  · next m heq =>
      have hm : m ∈ cs := List.argmin_mem (Option.mem_def.mpr heq)
      have hmt : m ∈ cs.filter (fun c => decide (entry D n s c = entry D n s m)) :=
        List.mem_filter.2 ⟨hm, by simp⟩
      have hlen : 0 < (cs.filter (fun c => decide (entry D n s c = entry D n s m))).length :=
        List.length_pos.2 (List.ne_nil_of_mem hmt)
      exact (List.mem_filter.1 (getD_mem_of_lt m (Nat.mod_lt _ hlen))).1

theorem pickNearest_mem_or_self (D : List ℚ) (n s : Nat) (cs : List Nat) (g : Gen) :
    (pickNearest D n s cs g).1 ∈ cs ∨ (pickNearest D n s cs g).1 = s := by
  rcases eq_or_ne cs [] with h | h
  · subst h; right; rw [pickNearest_nil]
  · exact Or.inl (pickNearest_mem D n s g h)

theorem nnMatchF_nil (D : List ℚ) (n fuel : Nat) (g : Gen) :
    nnMatchF D n fuel [] g = ([], g) := by
  cases fuel <;> rfl

theorem nnMatchF_succ_cons (D : List ℚ) (n fuel s : Nat) (rest : List Nat) (g : Gen) :
    nnMatchF D n (fuel + 1) (s :: rest) g =
      ((s, (pickNearest D n s rest g).1) ::
          (nnMatchF D n fuel (rest.erase (pickNearest D n s rest g).1)
            (pickNearest D n s rest g).2).1,
        (nnMatchF D n fuel (rest.erase (pickNearest D n s rest g).1)
          (pickNearest D n s rest g).2).2) := rfl

theorem nnMatchF_mem (D : List ℚ) (n : Nat) :
    ∀ (fuel : Nat) (l : List Nat) (g : Gen) (p : Nat × Nat),
      p ∈ (nnMatchF D n fuel l g).1 → p.1 ∈ l ∧ p.2 ∈ l := by
  intro fuel
  induction fuel with
  | zero =>
      intro l g p hp
      cases l <;> simp [nnMatchF] at hp
  | succ fuel ih =>
      intro l g p hp
      cases l with
      | nil => simp [nnMatchF] at hp
      | cons s rest =>
          rw [nnMatchF_succ_cons] at hp
          rcases List.mem_cons.1 hp with hp | hp
          · subst hp
            refine ⟨List.mem_cons_self _ _, ?_⟩
            rcases pickNearest_mem_or_self D n s rest g with hc | hc
            · exact List.mem_cons_of_mem _ hc
            · rw [hc]; exact List.mem_cons_self _ _
          · have := ih _ _ _ hp
            exact ⟨List.mem_cons_of_mem _ (List.erase_subset _ _ this.1),
              List.mem_cons_of_mem _ (List.erase_subset _ _ this.2)⟩

theorem nnMatchF_map_matchOf_perm (D : List ℚ) (n : Nat) :
    ∀ (fuel : Nat) (l : List Nat) (g : Gen), l.length ≤ fuel → l.Nodup →
      List.Perm (l.map (matchOf (nnMatchF D n fuel l g).1)) l := by
  intro fuel
  induction fuel with
  | zero =>
      intro l g hlen _
      have : l = [] := List.length_eq_zero.1 (Nat.le_zero.1 hlen)
      subst this
      simp
  | succ fuel ih =>
      intro l g hlen hnd
      cases l with
      | nil => simp
      | cons s rest =>
          rcases eq_or_ne rest [] with hrest | hrest
          · subst hrest
            have hone : nnMatchF D n (fuel + 1) [s] g = ([(s, s)], g) := by
              rw [nnMatchF_succ_cons]
              simp [pickNearest_nil, nnMatchF_nil]
            rw [hone]
            have hmap : List.map (matchOf [(s, s)]) [s] = [s] := by simp [matchOf]
            rw [hmap]
          · have hc : (pickNearest D n s rest g).1 ∈ rest := pickNearest_mem D n s g hrest
            set c := (pickNearest D n s rest g).1 with hcdef
            set g' := (pickNearest D n s rest g).2 with hgdef
            have hs : s ∉ rest := (List.nodup_cons.1 hnd).1
            have hnd' : rest.Nodup := (List.nodup_cons.1 hnd).2
            have hcs : c ≠ s := fun hh => hs (hh ▸ hc)
            have hndE : (rest.erase c).Nodup := hnd'.erase c
            have hlenE : (rest.erase c).length ≤ fuel :=
              le_trans (List.erase_sublist c rest).length_le (Nat.le_of_succ_le_succ hlen)
            have hIH := ih (rest.erase c) g' hlenE hndE
            set ps := (nnMatchF D n fuel (rest.erase c) g').1 with hpsdef
            rw [nnMatchF_succ_cons]
            have hperm1 : List.Perm rest (c :: rest.erase c) := List.perm_cons_erase hc
            have hRest : List.Perm (List.map (matchOf ((s, c) :: ps)) rest)
                (List.map (matchOf ((s, c) :: ps)) (c :: rest.erase c)) := hperm1.map _
            have hfc : matchOf ((s, c) :: ps) c = s := by
              simp [matchOf, hcs]
            have hfx : List.map (matchOf ((s, c) :: ps)) (rest.erase c) =
                List.map (matchOf ps) (rest.erase c) := by
              apply List.map_congr_left
              intro x hx
              have hxc : x ≠ c := ((hnd'.mem_erase_iff).1 hx).1
              have hxs : x ≠ s := fun hh => hs (hh ▸ (List.erase_subset _ _ hx))
              simp [matchOf, hxc, hxs]
            have hfs : matchOf ((s, c) :: ps) s = c := by simp [matchOf]
            have e1 : List.map (matchOf ((s, c) :: ps)) (s :: rest) =
                c :: List.map (matchOf ((s, c) :: ps)) rest := by simp [hfs]
            have e2 : List.map (matchOf ((s, c) :: ps)) (c :: rest.erase c) =
                s :: List.map (matchOf ps) (rest.erase c) := by simp [hfc, hfx]
            have p1 : List.Perm (List.map (matchOf ((s, c) :: ps)) rest)
                (s :: List.map (matchOf ps) (rest.erase c)) := by
              have := hRest
              rw [e2] at this
              exact this
            have p2 : List.Perm (c :: List.map (matchOf ((s, c) :: ps)) rest)
                (c :: s :: rest.erase c) :=
              (p1.cons c).trans (((hIH).cons s).cons c)
            have p3 : List.Perm (c :: s :: rest.erase c) (s :: rest) :=
              (List.Perm.swap s c _).trans (hperm1.cons s).symm
            rw [e1]
            exact p2.trans p3

theorem perm_and_mask_perm (D_Z : List ℚ) (n : Nat) (sample : List Nat) (g : Gen)
    (h : sample.Nodup) :
    List.Perm (perm_and_mask D_Z n sample g).1.1 sample := by
  simpa [perm_and_mask, nnMatch] using
    nnMatchF_map_matchOf_perm D_Z n sample.length sample g le_rfl h

theorem perm_and_mask_mask_mem (D_Z : List ℚ) (n : Nat) (sample : List Nat) (g : Gen)
    (i j : Nat) (h : (i, j) ∈ (perm_and_mask D_Z n sample g).1.2) :
    i ∈ sample ∧ j ∈ sample := by
  have hm : (i, j) ∈ (nnMatchF D_Z n sample.length sample g).1 := by
    simpa [perm_and_mask, nnMatch] using h
  exact nnMatchF_mem D_Z n sample.length sample g (i, j) hm

/-- C1: for every distance matrix, size, sample of valid (duplicate-free)
indices and generator state, the Permutation returned by `perm_and_mask` has
the sample's length and is a bijection on the sample's index set: it is a
duplicate-free rearrangement in which every sample index appears exactly
once. -/
theorem perm_and_mask_bijection (D_Z : List ℚ) (n : Nat) (sample : List Nat) (g : Gen)
    (h : sample.Nodup) :
    ((perm_and_mask D_Z n sample g).1.1).length = sample.length ∧
      List.Perm (perm_and_mask D_Z n sample g).1.1 sample ∧
      ((perm_and_mask D_Z n sample g).1.1).Nodup := by
  have hp := perm_and_mask_perm D_Z n sample g h
  exact ⟨by simp [perm_and_mask], hp, hp.nodup_iff.mpr h⟩

/-- C1 witness: a concrete sample on which the bijection property holds. -/
theorem perm_and_mask_bijection_witness :
    ([0, 1] : List Nat).Nodup ∧
      (((perm_and_mask [0, 0, 0, 0] 2 [0, 1] (mkGen 7)).1.1).length =
          ([0, 1] : List Nat).length ∧
        List.Perm (perm_and_mask [0, 0, 0, 0] 2 [0, 1] (mkGen 7)).1.1 [0, 1] ∧
        ((perm_and_mask [0, 0, 0, 0] 2 [0, 1] (mkGen 7)).1.1).Nodup) :=
  ⟨by decide, perm_and_mask_bijection [0, 0, 0, 0] 2 [0, 1] (mkGen 7) (by decide)⟩

/-- C6: with the sample equal to all `n` indices and an all-zero distance
matrix, `perm_and_mask` still returns a valid bijection of length `n` (its
total return type has no failure channel, and an exhausted candidate pool is
resolved by the identity self-match), for every `n` and generator state. -/
theorem perm_and_mask_self_match_fallback (n : Nat) (g : Gen) :
    ((perm_and_mask (List.replicate (n * n) 0) n (List.range n) g).1.1).length = n ∧
      List.Perm (perm_and_mask (List.replicate (n * n) 0) n (List.range n) g).1.1
        (List.range n) := by
  have hp := perm_and_mask_perm (List.replicate (n * n) 0) n (List.range n) g
    (List.nodup_range n)
  exact ⟨by simp [perm_and_mask], hp⟩

/-- C9: every pair in the Mask returned by `perm_and_mask` has both of its
components drawn from the sample passed to that call. -/
theorem perm_and_mask_mask_in_sample (D_Z : List ℚ) (n : Nat) (sample : List Nat)
    (g : Gen) (i j : Nat) (h : (i, j) ∈ (perm_and_mask D_Z n sample g).1.2) :
    i ∈ sample ∧ j ∈ sample :=
  perm_and_mask_mask_mem D_Z n sample g i j h

/-- C9 witness: a concrete mask pair whose components lie in the sample. -/
theorem perm_and_mask_mask_in_sample_witness :
    (0, 1) ∈ (perm_and_mask [0, 0, 0, 0] 2 [0, 1] (mkGen 0)).1.2 ∧
      (0 ∈ ([0, 1] : List Nat) ∧ 1 ∈ ([0, 1] : List Nat)) :=
  ⟨by decide, perm_and_mask_mask_in_sample [0, 0, 0, 0] 2 [0, 1] (mkGen 0) 0 1 (by decide)⟩

/-! Helper lemmas about flat row-major indexing and matrix bounds. -/

theorem getD_range_map {α : Type} (f : Nat → α) (d : α) {m k : Nat} (h : k < m) :
    ((List.range m).map f).getD k d = f k := by
  rw [List.getD_eq_getElem?_getD, List.getElem?_map, List.getElem?_range h]
  rfl

theorem index_lt {i j n : Nat} (hi : i < n) (hj : j < n) : i * n + j < n * n :=
  calc i * n + j < i * n + n := by omega
    _ = (i + 1) * n := by ring
    _ ≤ n * n := Nat.mul_le_mul_right n hi

theorem index_div (i : Nat) {j n : Nat} (hj : j < n) : (i * n + j) / n = i := by
  have h : i * n + j = j + n * i := by ring
  rw [h, Nat.add_mul_div_left j i (by omega : 0 < n), Nat.div_eq_of_lt hj, Nat.zero_add]

theorem index_mod (i : Nat) {j n : Nat} (hj : j < n) : (i * n + j) % n = j := by
  have h : i * n + j = j + n * i := by ring
  rw [h, Nat.add_mul_mod_self_left, Nat.mod_eq_of_lt hj]

theorem le_foldl_max (l : List ℚ) (a : ℚ) :
    a ≤ l.foldl max a ∧ ∀ x ∈ l, x ≤ l.foldl max a := by
  induction l generalizing a with
  | nil => exact ⟨le_refl a, by simp⟩
  | cons y ys ih =>
      constructor
      · exact le_trans (le_max_left a y) (ih (max a y)).1
      · intro x hx
        rcases List.mem_cons.1 hx with h | h
        · subst h
          exact le_trans (le_max_right a x) (ih (max a x)).1
        · exact (ih (max a y)).2 x h

theorem getD_le_maxEntry (D : List ℚ) (k : Nat) : D.getD k 0 ≤ maxEntry D := by
  by_cases h : k < D.length
  · exact (le_foldl_max D 0).2 _ (getD_mem_of_lt 0 h)
  · rw [List.getD_eq_getElem?_getD, List.getElem?_eq_none (Nat.le_of_not_lt h)]
    simpa using (le_foldl_max D 0).1

theorem penalized_distance_entry (D : List ℚ) (n : Nat) (mask : List (Nat × Nat))
    {i j : Nat} (hi : i < n) (hj : j < n) :
    entry (penalized_distance D n mask) n i j =
      if (i, j) ∈ mask ∨ (j, i) ∈ mask then maxEntry D + 1 else entry D n i j := by
  unfold entry penalized_distance
  rw [getD_range_map _ _ (index_lt hi hj), index_div i hj, index_mod i hj]

/-- C4: masked pairs are inflated — to at least their original value and
strictly above every unmasked entry's original value — while unmasked entries
of `penalized_distance` keep their original value exactly. -/
theorem penalized_distance_spec (D : List ℚ) (n : Nat) (mask : List (Nat × Nat))
    (i j : Nat) (hi : i < n) (hj : j < n) :
    (((i, j) ∈ mask ∨ (j, i) ∈ mask) →
        entry D n i j ≤ entry (penalized_distance D n mask) n i j ∧
        (∀ p q : Nat, p < n → q < n → ¬((p, q) ∈ mask ∨ (q, p) ∈ mask) →
          entry D n p q < entry (penalized_distance D n mask) n i j)) ∧
      (¬((i, j) ∈ mask ∨ (j, i) ∈ mask) →
        entry (penalized_distance D n mask) n i j = entry D n i j) := by
  rw [penalized_distance_entry D n mask hi hj]
  constructor
  · intro hmem
    rw [if_pos hmem]
    constructor
    · exact le_trans (getD_le_maxEntry D (i * n + j)) (by linarith)
    · intro p q _ _ _
      exact lt_of_le_of_lt (getD_le_maxEntry D (p * n + q)) (by linarith)
  · intro hmem
    rw [if_neg hmem]

/-- C4 witness: a concrete masked entry is inflated above the unmasked
entries, which are unchanged. -/
theorem penalized_distance_spec_witness :
    0 < 2 ∧ 1 < 2 ∧
      ((((0, 1) ∈ ([(0, 1)] : List (Nat × Nat)) ∨ ((1, 0) ∈ ([(0, 1)] : List (Nat × Nat)))) →
          entry [0, 1, 2, 3] 2 0 1 ≤ entry (penalized_distance [0, 1, 2, 3] 2 [(0, 1)]) 2 0 1 ∧
          (∀ p q : Nat, p < 2 → q < 2 →
            ¬((p, q) ∈ ([(0, 1)] : List (Nat × Nat)) ∨ (q, p) ∈ ([(0, 1)] : List (Nat × Nat))) →
            entry [0, 1, 2, 3] 2 p q <
              entry (penalized_distance [0, 1, 2, 3] 2 [(0, 1)]) 2 0 1)) ∧
        (¬((0, 1) ∈ ([(0, 1)] : List (Nat × Nat)) ∨ (1, 0) ∈ ([(0, 1)] : List (Nat × Nat))) →
          entry (penalized_distance [0, 1, 2, 3] 2 [(0, 1)]) 2 0 1 = entry [0, 1, 2, 3] 2 0 1)) :=
  ⟨by decide, by decide,
    penalized_distance_spec [0, 1, 2, 3] 2 [(0, 1)] 0 1 (by decide) (by decide)⟩

/-- C5: `shuffle_matrix` returns a `len(perm) × len(perm)` matrix whose entry
at `(i, j)` equals the source entry at `(perm[i], perm[j])`, for all in-range
positions. -/
theorem shuffle_matrix_spec (mat : List ℚ) (n : Nat) (perm : List Nat)
    (i j : Nat) (hi : i < perm.length) (hj : j < perm.length) :
    (shuffle_matrix mat n perm).length = perm.length * perm.length ∧
      entry (shuffle_matrix mat n perm) perm.length i j =
        entry mat n (perm.getD i 0) (perm.getD j 0) := by
  constructor
  · simp [shuffle_matrix]
  · unfold entry shuffle_matrix
    rw [getD_range_map _ _ (index_lt hi hj), index_div i hj, index_mod i hj]
    rfl

/-- C5 witness: a concrete 2×2 shuffle by the reversing permutation. -/
theorem shuffle_matrix_spec_witness :
    0 < ([1, 0] : List Nat).length ∧ 1 < ([1, 0] : List Nat).length ∧
      ((shuffle_matrix [0, 1, 2, 3] 2 [1, 0]).length =
          ([1, 0] : List Nat).length * ([1, 0] : List Nat).length ∧
        entry (shuffle_matrix [0, 1, 2, 3] 2 [1, 0]) ([1, 0] : List Nat).length 0 1 =
          entry [0, 1, 2, 3] 2 (([1, 0] : List Nat).getD 0 0) (([1, 0] : List Nat).getD 1 0)) :=
  ⟨by decide, by decide,
    shuffle_matrix_spec [0, 1, 2, 3] 2 [1, 0] 0 1 (by decide) (by decide)⟩

/-! Helper lemmas about the thread partition and the slot writes. -/

theorem getD_of_lt (l : List ℚ) {k : Nat} (h : k < l.length) : l.getD k 0 = l[k] := by
  rw [List.getD_eq_getElem?_getD, List.getElem?_eq_getElem h]
  rfl

theorem getD_set_self {l : List ℚ} {i : Nat} (a : ℚ) (h : i < l.length) :
    (l.set i a).getD i 0 = a := by
  rw [List.getD_eq_getElem?_getD, List.getElem?_set_self h]
  rfl

theorem getD_set_ne {l : List ℚ} {i j : Nat} (a : ℚ) (h : i ≠ j) :
    (l.set i a).getD j 0 = l.getD j 0 := by
  rw [List.getD_eq_getElem?_getD, List.getElem?_set_ne h, ← List.getD_eq_getElem?_getD]

theorem writeSlots_length (ws : List (Nat × ℚ)) (buf : List ℚ) :
    (writeSlots buf ws).length = buf.length := by
  induction ws generalizing buf with
  | nil => rfl
  | cons w ws ih => rw [writeSlots, ih, List.length_set]

theorem writeSlots_getD_not_mem (ws : List (Nat × ℚ)) (buf : List ℚ) (j : Nat)
    (h : j ∉ ws.map Prod.fst) : (writeSlots buf ws).getD j 0 = buf.getD j 0 := by
  induction ws generalizing buf with
  | nil => rfl
  | cons w ws ih =>
      have h1 : j ∉ ws.map Prod.fst := fun hh => h (List.mem_cons_of_mem _ hh)
      have h2 : w.1 ≠ j := by
        intro hh
        exact h (by simp [← hh])
      rw [writeSlots, ih _ h1, getD_set_ne _ h2]

theorem writeSlots_getD_mem (ws : List (Nat × ℚ)) (buf : List ℚ) (j : Nat) (v : ℚ)
    (hnd : (ws.map Prod.fst).Nodup) (hmem : (j, v) ∈ ws) (hlen : j < buf.length) :
    (writeSlots buf ws).getD j 0 = v := by
  induction ws generalizing buf with
  | nil => simp at hmem
  | cons w ws ih =>
      rw [List.map_cons] at hnd
      obtain ⟨hw, hnd'⟩ := List.nodup_cons.1 hnd
      rcases List.mem_cons.1 hmem with h | h
      · subst h
        rw [writeSlots, writeSlots_getD_not_mem ws _ j hw]
        exact getD_set_self v hlen
      · have hj : w.1 ≠ j := by
          intro hh
          exact hw (hh ▸ List.mem_map.2 ⟨(j, v), h, rfl⟩)
        rw [writeSlots]
        exact ih _ hnd' h (by rw [List.length_set]; exact hlen)

theorem threadRounds_nodup (b T t : Nat) : (threadRounds b T t).Nodup :=
  List.Nodup.filter _ (List.nodup_range b)

theorem mem_threadRounds {b T t i : Nat} :
    i ∈ threadRounds b T t ↔ i < b ∧ i * T / b = t := by
  simp [threadRounds, List.mem_filter, List.mem_range]

theorem roundWrites_keys (f : Nat → ℚ) (b T : Nat) :
    (roundWrites f b T).map Prod.fst =
      (List.range T).flatMap (fun t => threadRounds b T t) := by
  simp [roundWrites, List.map_flatMap, List.map_map, Function.comp_def]

theorem roundWrites_keys_nodup (f : Nat → ℚ) (b T : Nat) :
    ((roundWrites f b T).map Prod.fst).Nodup := by
  rw [roundWrites_keys]
  apply List.nodup_flatMap.2
  refine ⟨fun t _ => threadRounds_nodup b T t, ?_⟩
  apply List.Pairwise.imp ?_ (List.pairwise_lt_range T)
  intro t t' hlt i hi hi'
  have h1 := mem_threadRounds.1 hi
  have h2 := mem_threadRounds.1 hi'
  omega

theorem mem_roundWrites (f : Nat → ℚ) {b T j : Nat} (hT : 0 < T) (hj : j < b) :
    (j, f j) ∈ roundWrites f b T := by
  apply List.mem_flatMap.2
  refine ⟨j * T / b, List.mem_range.2 ?_, List.mem_map.2 ⟨j, mem_threadRounds.2 ⟨hj, rfl⟩, rfl⟩⟩
  have hb : 0 < b := Nat.lt_of_le_of_lt (Nat.zero_le j) hj
  rw [Nat.div_lt_iff_lt_mul hb]
  calc j * T < b * T := Nat.mul_lt_mul_of_pos_right hj hT
    _ = T * b := Nat.mul_comm b T

theorem writeSlots_roundWrites_getD (f : Nat → ℚ) (buf : List ℚ) {b T : Nat}
    (hT : 0 < T) (hlen : buf.length = b) {j : Nat} (hj : j < b) :
    (writeSlots buf (roundWrites f b T)).getD j 0 = f j :=
  writeSlots_getD_mem _ _ j _ (roundWrites_keys_nodup f b T) (mem_roundWrites f hT hj)
    (by omega)

theorem validConfig_iff (st : SdcitState) (n b n_threads : Int) :
    validConfig st n b n_threads = true ↔
      0 < n ∧ 0 ≤ b ∧ 0 < n_threads ∧ st.kxz.isSome = true ∧ st.ky.isSome = true ∧
        st.dz.isSome = true ∧ st.mmsd.isSome = true ∧ st.null.isSome = true := by
  simp [validConfig, and_assoc]

theorem c_sdcit_success (st : SdcitState) (n b seed n_threads : Int)
    (hv : validConfig st n b n_threads = true) :
    c_sdcit st n b seed n_threads =
      (none, { st with
        mmsd := some (statistic (st.kxz.getD []) (st.ky.getD []) n.toNat),
        null := some (writeSlots (st.null.getD [])
          (roundWrites
            (roundValue (st.kxz.getD []) (st.ky.getD []) (st.dz.getD []) n.toNat seed)
            b.toNat n_threads.toNat)) }) := by
  simp [c_sdcit, hv]

theorem c_sdcit_null_slot (st : SdcitState) (n b seed n_threads : Int)
    (hv : validConfig st n b n_threads = true)
    (hlen : (st.null.getD []).length = b.toNat) {j : Nat} (hj : j < b.toNat) :
    ((c_sdcit st n b seed n_threads).2.null.getD []).getD j 0 =
      roundValue (st.kxz.getD []) (st.ky.getD []) (st.dz.getD []) n.toNat seed j := by
  have hT : 0 < n_threads.toNat := by
    have h := (validConfig_iff st n b n_threads).1 hv
    omega
  rw [c_sdcit_success st n b seed n_threads hv]
  simp only [Option.getD_some]
  exact writeSlots_roundWrites_getD _ _ hT hlen hj

/-- C2: for fixed inputs, bootstrap count, seed and thread count, any two
invocations of `c_sdcit` produce bit-identical `mmsd` and bit-identical values
in every slot of `null` (the embedding is a pure function of its arguments,
with all randomness drawn from the explicit seed). -/
theorem c_sdcit_deterministic (st₁ st₂ : SdcitState) (n₁ n₂ b₁ b₂ s₁ s₂ T₁ T₂ : Int)
    (hst : st₁ = st₂) (hn : n₁ = n₂) (hb : b₁ = b₂) (hs : s₁ = s₂) (hT : T₁ = T₂) :
    (c_sdcit st₁ n₁ b₁ s₁ T₁).2.mmsd = (c_sdcit st₂ n₂ b₂ s₂ T₂).2.mmsd ∧
      (c_sdcit st₁ n₁ b₁ s₁ T₁).2.null = (c_sdcit st₂ n₂ b₂ s₂ T₂).2.null ∧
      ∀ j : Nat, ((c_sdcit st₁ n₁ b₁ s₁ T₁).2.null.getD []).getD j 0 =
        ((c_sdcit st₂ n₂ b₂ s₂ T₂).2.null.getD []).getD j 0 := by
  subst hst hn hb hs hT
  exact ⟨rfl, rfl, fun _ => rfl⟩

/-- C2 witness: two invocations at identical concrete arguments. -/
theorem c_sdcit_deterministic_witness :
    (⟨some [1], some [1], some [0], some 0, some [0]⟩ : SdcitState) =
        (⟨some [1], some [1], some [0], some 0, some [0]⟩ : SdcitState) ∧
      (1 : Int) = 1 ∧ (1 : Int) = 1 ∧ (0 : Int) = 0 ∧ (1 : Int) = 1 ∧
      ((c_sdcit ⟨some [1], some [1], some [0], some 0, some [0]⟩ 1 1 0 1).2.mmsd =
          (c_sdcit ⟨some [1], some [1], some [0], some 0, some [0]⟩ 1 1 0 1).2.mmsd ∧
        (c_sdcit ⟨some [1], some [1], some [0], some 0, some [0]⟩ 1 1 0 1).2.null =
          (c_sdcit ⟨some [1], some [1], some [0], some 0, some [0]⟩ 1 1 0 1).2.null ∧
        ∀ j : Nat,
          ((c_sdcit ⟨some [1], some [1], some [0], some 0, some [0]⟩ 1 1 0 1).2.null.getD
              []).getD j 0 =
            ((c_sdcit ⟨some [1], some [1], some [0], some 0, some [0]⟩ 1 1 0 1).2.null.getD
              []).getD j 0) :=
  ⟨rfl, rfl, rfl, rfl, rfl,
    c_sdcit_deterministic _ _ 1 1 1 1 0 0 1 1 rfl rfl rfl rfl rfl⟩

/-- C3: for a fixed seed and valid configurations, the `null` buffer written
by `c_sdcit` is identical (hence equal as a multiset) for any two thread
counts, and slot `j` always holds the round value — a function of the seed,
the round index and the inputs only, independent of the thread count. -/
theorem c_sdcit_thread_count_invariance (st : SdcitState) (n b seed T₁ T₂ : Int)
    (hv₁ : validConfig st n b T₁ = true) (hv₂ : validConfig st n b T₂ = true)
    (hlen : (st.null.getD []).length = b.toNat) :
    (c_sdcit st n b seed T₁).2.null = (c_sdcit st n b seed T₂).2.null ∧
      ∀ j : Nat, j < b.toNat →
        ((c_sdcit st n b seed T₁).2.null.getD []).getD j 0 =
          roundValue (st.kxz.getD []) (st.ky.getD []) (st.dz.getD []) n.toNat seed j := by
  have hT₁ : 0 < T₁.toNat := by
    have h := (validConfig_iff st n b T₁).1 hv₁
    omega
  have hT₂ : 0 < T₂.toNat := by
    have h := (validConfig_iff st n b T₂).1 hv₂
    omega
  constructor
  · rw [c_sdcit_success st n b seed T₁ hv₁, c_sdcit_success st n b seed T₂ hv₂]
    refine congrArg some ?_
    apply List.ext_getElem
    · rw [writeSlots_length, writeSlots_length]
    · intro k h1 h2
      have hk : k < b.toNat := by
        rw [writeSlots_length, hlen] at h1
        exact h1
      rw [← getD_of_lt _ h1, ← getD_of_lt _ h2,
        writeSlots_roundWrites_getD _ _ hT₁ hlen hk,
        writeSlots_roundWrites_getD _ _ hT₂ hlen hk]
  · intro j hj
    exact c_sdcit_null_slot st n b seed T₁ hv₁ hlen hj

/-- C3 witness: one bootstrap round, two threads versus one thread. -/
theorem c_sdcit_thread_count_invariance_witness :
    validConfig ⟨some [1], some [1], some [0], some 0, some [0]⟩ 1 1 2 = true ∧
      validConfig ⟨some [1], some [1], some [0], some 0, some [0]⟩ 1 1 1 = true ∧
      ((⟨some [1], some [1], some [0], some 0, some [0]⟩ : SdcitState).null.getD []).length =
        (1 : Int).toNat ∧
      ((c_sdcit ⟨some [1], some [1], some [0], some 0, some [0]⟩ 1 1 0 2).2.null =
          (c_sdcit ⟨some [1], some [1], some [0], some 0, some [0]⟩ 1 1 0 1).2.null ∧
        ∀ j : Nat, j < (1 : Int).toNat →
          ((c_sdcit ⟨some [1], some [1], some [0], some 0, some [0]⟩ 1 1 0 2).2.null.getD
              []).getD j 0 =
            roundValue [1] [1] [0] (1 : Int).toNat 0 j) :=
  ⟨rfl, rfl, rfl,
    c_sdcit_thread_count_invariance ⟨some [1], some [1], some [0], some 0, some [0]⟩
      1 1 0 2 1 rfl rfl rfl⟩

/-- C7: an invalid configuration — non-positive `n`, negative `b`,
non-positive thread count, or any absent buffer pointer — is rejected before
any computation: an error is surfaced to the caller and the caller's state,
including `mmsd` and every slot of `null`, is returned unchanged. -/
theorem c_sdcit_invalid_config (st : SdcitState) (n b seed n_threads : Int)
    (h : n ≤ 0 ∨ b < 0 ∨ n_threads ≤ 0 ∨ st.kxz = none ∨ st.ky = none ∨ st.dz = none ∨
      st.mmsd = none ∨ st.null = none) :
    (c_sdcit st n b seed n_threads).1.isSome = true ∧
      (c_sdcit st n b seed n_threads).2 = st := by
  have hv : validConfig st n b n_threads = false := by
    cases hvb : validConfig st n b n_threads
    · rfl
    · exfalso
      obtain ⟨h1, h2, h3, h4, h5, h6, h7, h8⟩ := (validConfig_iff st n b n_threads).1 hvb
      rcases h with h | h | h | h | h | h | h | h
      · omega
      · omega
      · omega
      · rw [h] at h4; simp at h4
      · rw [h] at h5; simp at h5
      · rw [h] at h6; simp at h6
      · rw [h] at h7; simp at h7
      · rw [h] at h8; simp at h8
  simp [c_sdcit, hv]

/-- C7 witness: an all-null state with `n = 0` is rejected with no writes. -/
theorem c_sdcit_invalid_config_witness :
    ((0 : Int) ≤ 0 ∨ (0 : Int) < 0 ∨ (1 : Int) ≤ 0 ∨
        (⟨none, none, none, none, none⟩ : SdcitState).kxz = none ∨
        (⟨none, none, none, none, none⟩ : SdcitState).ky = none ∨
        (⟨none, none, none, none, none⟩ : SdcitState).dz = none ∨
        (⟨none, none, none, none, none⟩ : SdcitState).mmsd = none ∨
        (⟨none, none, none, none, none⟩ : SdcitState).null = none) ∧
      ((c_sdcit ⟨none, none, none, none, none⟩ 0 0 0 1).1.isSome = true ∧
        (c_sdcit ⟨none, none, none, none, none⟩ 0 0 0 1).2 =
          ⟨none, none, none, none, none⟩) :=
  ⟨Or.inl (by decide), c_sdcit_invalid_config _ 0 0 0 1 (Or.inl (by decide))⟩

/-- C8: `c_sdcit` never mutates the caller's input matrices: the `K_XZ`,
`K_Y` and `D_Z` buffers of the state are returned unchanged by every
invocation (the per-round penalized matrices are fresh values produced by the
pure function `penalized_distance`, never written back to `dz`). -/
theorem c_sdcit_inputs_unchanged (st : SdcitState) (n b seed n_threads : Int) :
    (c_sdcit st n b seed n_threads).2.kxz = st.kxz ∧
      (c_sdcit st n b seed n_threads).2.ky = st.ky ∧
      (c_sdcit st n b seed n_threads).2.dz = st.dz := by
  by_cases hv : validConfig st n b n_threads = true
  · rw [c_sdcit_success st n b seed n_threads hv]
    exact ⟨rfl, rfl, rfl⟩
  · simp [c_sdcit, hv]

/-- C10: with `b = 0` and an otherwise valid configuration, `c_sdcit`
succeeds, writes the statistic of the unpermuted inputs to `mmsd`, and leaves
the `null` buffer exactly as the caller provided it. -/
theorem c_sdcit_b_zero (st : SdcitState) (n seed n_threads : Int)
    (hv : validConfig st n 0 n_threads = true) :
    (c_sdcit st n 0 seed n_threads).1 = none ∧
      (c_sdcit st n 0 seed n_threads).2.mmsd =
        some (statistic (st.kxz.getD []) (st.ky.getD []) n.toNat) ∧
      (c_sdcit st n 0 seed n_threads).2.null = st.null := by
  rw [c_sdcit_success st n 0 seed n_threads hv]
  refine ⟨rfl, rfl, ?_⟩
  have hw : roundWrites
      (roundValue (st.kxz.getD []) (st.ky.getD []) (st.dz.getD []) n.toNat seed)
      (0 : Int).toNat n_threads.toNat = [] := by
    simp [roundWrites, threadRounds]
  rw [hw]
  have h8 : st.null.isSome = true := ((validConfig_iff st n 0 n_threads).1 hv).2.2.2.2.2.2.2
  obtain ⟨l, hl⟩ := Option.isSome_iff_exists.1 h8
  rw [hl]
  rfl

/-- C10 witness: a valid 1×1 configuration with zero bootstrap rounds. -/
theorem c_sdcit_b_zero_witness :
    validConfig ⟨some [1], some [1], some [0], some 0, some [0]⟩ 1 0 1 = true ∧
      ((c_sdcit ⟨some [1], some [1], some [0], some 0, some [0]⟩ 1 0 0 1).1 = none ∧
        (c_sdcit ⟨some [1], some [1], some [0], some 0, some [0]⟩ 1 0 0 1).2.mmsd =
          some (statistic [1] [1] (1 : Int).toNat) ∧
        (c_sdcit ⟨some [1], some [1], some [0], some 0, some [0]⟩ 1 0 0 1).2.null =
          some [0]) :=
  ⟨rfl, c_sdcit_b_zero ⟨some [1], some [1], some [0], some 0, some [0]⟩ 1 0 1 rfl⟩

end SDCIT
